import Mathlib

/-!
Shallow embedding of the RSS aggregation core (`rss_parser.py`) of the
Persian sports-news bot, together with theorems settling the specification
claims about it.

Text is modelled as `List Char`.  The Python string operations used by the
source (the tag-removal regex substitution, `str.replace`, `str.split`/`join`,
`str.strip`, `str.lower`, substring `in`) are embedded as executable
functions below.  The external feed parser and HTTP layer are modelled by a
per-source fetch outcome (`FetchOutcome`), and the external RFC-2822 date
parser (`email.utils.parsedate_to_datetime`) by an explicit `parse`
parameter.
-/

namespace Abidel

/-- Python whitespace characters recognised by `str.split()` / `str.strip()`. -/
def isWsB (c : Char) : Bool :=
  c = ' ' || c = '\t' || c = '\n' || c = '\r' || c = '\x0b' || c = '\x0c'

/-- One character of Python `str.lower()` (ASCII case folding; the Persian
characters used by the program are unaffected by lowering). -/
def pyLowerChar (c : Char) : Char :=
  if 'A' ≤ c ∧ c ≤ 'Z' then Char.ofNat (c.toNat + 32) else c

/-- Python `str.lower()`. -/
def pyLower (l : List Char) : List Char := l.map pyLowerChar

/-- Python substring test `needle in hay`. -/
def pyContains (hay needle : List Char) : Bool :=
  match hay with
  | [] => needle.isEmpty
  | c :: t => needle.isPrefixOf (c :: t) || pyContains t needle

/-- Python `str.strip()`: drop leading and trailing whitespace. -/
def pyStrip (l : List Char) : List Char :=
  ((l.dropWhile isWsB).reverse.dropWhile isWsB).reverse

/-- Worker for Python `str.split()`: `acc` holds the current word reversed. -/
def splitAux : List Char → List Char → List (List Char)
  | [], acc => if acc = [] then [] else [acc.reverse]
  | c :: rest, acc =>
      if isWsB c then
        if acc = [] then splitAux rest []
        else acc.reverse :: splitAux rest []
      else splitAux rest (c :: acc)

/-- Python `str.split()` with no separator: split on whitespace runs,
dropping empty pieces. -/
def pySplit (l : List Char) : List (List Char) := splitAux l []

/-- Python space-join of the split words. -/
def joinSp : List (List Char) → List Char
  | [] => []
  | w :: ws => w ++ (if ws = [] then [] else ' ' :: joinSp ws)

/-- One left-to-right pass implementing the Python regex substitution that
deletes every match of the pattern `<[^<]+?>`.  The first argument is the
pending candidate tag: `some buf` means `buf` (starting with `<` and
containing no further `<`) has been read but its closing `>` not yet
found.  A match of the regex is the shortest run consisting of `<`,
one-or-more characters other than `<`, then `>`; matches are removed and
scanning resumes after each match, exactly as `re.sub` does. -/
def stripGo : Option (List Char) → List Char → List Char
  | none, [] => []
  | some buf, [] => buf
  | none, c :: rest =>
      if c = '<' then stripGo (some [c]) rest
      else c :: stripGo none rest
  | some buf, c :: rest =>
      if c = '<' then buf ++ stripGo (some [c]) rest
      else if c = '>' then
        if 2 ≤ buf.length then stripGo none rest
        else stripGo (some (buf ++ [c])) rest
      else stripGo (some (buf ++ [c])) rest

/-- Model of the tag-removal line of the source: delete every regex match
of the pattern `<[^<]+?>` from the text. -/
def removeTags (l : List Char) : List Char := stripGo none l

/-- One character of the two Persian character replacements (Arabic yeh to
Persian yeh, Arabic kaf to Persian kaf). -/
def replacePersianChar (c : Char) : Char :=
  if c = 'ي' then 'ی' else if c = 'ك' then 'ک' else c

/-- Model of the two chained `str.replace` calls of the source: both
replaced characters differ from both replacement characters, so the two
passes equal one map. -/
def replacePersian (l : List Char) : List Char := l.map replacePersianChar

/-- Model of the space-join of `text.split()` followed by `.strip()`. -/
def cleanCore (l : List Char) : List Char := pyStrip (joinSp (pySplit l))

/-- Model of `RSSParser._clean_text`: empty guard, tag removal, Persian
yeh/kaf normalization, whitespace collapse, trim. -/
def clean_text (l : List Char) : List Char :=
  if l = [] then [] else cleanCore (replacePersian (removeTags l))

/-- The calendar datetime produced by the external RFC-2822 parser
`email.utils.parsedate_to_datetime`. -/
structure PyDateTime where
  year : Nat
  month : Nat
  day : Nat
  hour : Nat
  minute : Nat
deriving DecidableEq, Repr

/-- The fixed 12-entry Persian month-name table of `_format_date`. -/
def persian_months : List (List Char) :=
  ["ژانویه".toList, "فوریه".toList, "مارس".toList, "آپریل".toList,
   "مه".toList, "ژوئن".toList, "ژوئیه".toList, "آگوست".toList,
   "سپتامبر".toList, "اکتبر".toList, "نوامبر".toList, "دسامبر".toList]

/-- The fixed sentinel returned for an empty date string. -/
def unknown_date : List Char := "تاریخ نامشخص".toList

/-- Decimal rendering of a natural, as Python `str`/`format` produce. -/
def natChars (n : Nat) : List Char := (Nat.repr n).toList

/-- Python zero-padded two-digit formatting for the nonnegative hour and
minute values. -/
def pad2 (n : Nat) : List Char :=
  if n < 10 then '0' :: natChars n else natChars n

/-- The success rendering of `_format_date`: day, Persian month name
(table indexed by month number minus one), year, a dash, then zero-padded
hour and minute separated by a colon. -/
def renderDate (dt : PyDateTime) : List Char :=
  natChars dt.day ++ ' ' :: (persian_months.getD (dt.month - 1) []) ++
    ' ' :: natChars dt.year ++ ' ' :: '-' :: ' ' :: pad2 dt.hour ++ ':' :: pad2 dt.minute

/-- Model of `RSSParser._format_date`, parameterized by the external date parser
(`parse d = none` models both a `None` result and a raised parse error,
which the bare `except: pass` turns into falling through to
`return date_str`). -/
def format_date (parse : List Char → Option PyDateTime) (date_str : List Char) : List Char :=
  if date_str = [] then unknown_date
  else
    match parse date_str with
    | some dt => renderDate dt
    | none => date_str

/-- One entry of a parsed feed document, with the optional fields
`_fetch_feed` reads via `entry.get`. -/
structure RawEntry where
  title : Option (List Char)
  summary : Option (List Char)
  description : Option (List Char)
  link : Option (List Char)
  published : Option (List Char)
  published_parsed : Option Nat
deriving DecidableEq, Repr

/-- Outcome of one source's fetch: `ok entries` when the HTTP request
returned 200 and the (possibly bozo) feed parser produced `entries`;
`fail` for a timeout, a non-200 status, or any raised exception — all of
which `_fetch_feed` turns into an empty contribution. -/
inductive FetchOutcome where
  | ok (entries : List RawEntry)
  | fail
deriving DecidableEq, Repr

/-- A configured source together with its fixed fetch outcome for one run. -/
structure SourceFetch where
  name : List Char
  outcome : FetchOutcome
deriving DecidableEq, Repr

/-- The news-item dict built by `_fetch_feed` for one entry. -/
structure NewsItem where
  title : List Char
  description : List Char
  link : List Char
  published : List Char
  published_parsed : Nat
  source : List Char
deriving DecidableEq, Repr

/-- Default title (the no-title Persian sentinel) used when an entry has
no title field. -/
def default_title : List Char := "بدون عنوان".toList

/-- Building one news item from one feed entry inside `_fetch_feed`,
returning `none` when the entry is skipped because title or link is empty
(the skip check on an empty title or link in the source).
`published_parsed` missing is replaced by the minimum timestamp sentinel,
modelled as `0`. -/
def buildEntry (parse : List Char → Option PyDateTime) (src : List Char)
    (e : RawEntry) : Option NewsItem :=
  let title := clean_text (e.title.getD default_title)
  let link := e.link.getD []
  if title = [] ∨ link = [] then none
  else
    some { title := title
           description := clean_text (e.summary.getD (e.description.getD []))
           link := link
           published := format_date parse (e.published.getD [])
           published_parsed := e.published_parsed.getD 0
           source := src }

/-- The per-entry loop of `_fetch_feed` over the (already truncated)
entry list: build each item, skipping the ones with empty title or link. -/
def processEntries (parse : List Char → Option PyDateTime) (src : List Char)
    (entries : List RawEntry) : List NewsItem :=
  entries.filterMap (buildEntry parse src)

/-- Model of `RSSParser._fetch_feed` for one source: failures yield `[]`,
success processes the first 10 entries of the feed. -/
def fetch_feed (parse : List Char → Option PyDateTime) (s : SourceFetch) : List NewsItem :=
  match s.outcome with
  | .fail => []
  | .ok entries => processEntries parse s.name (entries.take 10)

/-- The gather-and-extend merge of `get_latest_news`/`get_esteghlal_news`:
results arrive in task order and failed sources contribute nothing. -/
def mergeFeeds (parse : List Char → Option PyDateTime)
    (sources : List SourceFetch) : List NewsItem :=
  (sources.map (fetch_feed parse)).flatten

/-- The descending comparison used by the reverse sort on the
published_parsed key. -/
def newsGE (a b : NewsItem) : Prop := b.published_parsed ≤ a.published_parsed

instance : DecidableRel newsGE := fun _ _ => Nat.decLe _ _

instance : IsTotal NewsItem newsGE :=
  ⟨fun a b => (Nat.le_total b.published_parsed a.published_parsed).imp id id⟩

instance : IsTrans NewsItem newsGE :=
  ⟨fun _ _ _ h1 h2 => Nat.le_trans h2 h1⟩

/-- The stable Python reverse sort on news items:
insertion sort with `newsGE`, which places an earlier element before a
later one exactly when its key is greater *or equal* — the unique stable
descending order. -/
def sortNews (l : List NewsItem) : List NewsItem := List.insertionSort newsGE l

/-- Model of `RSSParser.get_latest_news`: merge all sources, stable-sort
newest first, truncate to `limit`. -/
def get_latest_news (parse : List Char → Option PyDateTime)
    (sources : List SourceFetch) (limit : Nat) : List NewsItem :=
  (sortNews (mergeFeeds parse sources)).take limit

/-- The static `category_keywords` mapping of the parser. -/
def category_keywords : List (List Char × List (List Char)) :=
  [("football".toList,
    ["فوتبال".toList, "پرسپولیس".toList, "استقلال".toList,
     "تیم ملی".toList, "لیگ برتر".toList, "جام جهانی".toList]),
   ("basketball".toList,
    ["بسکتبال".toList, "سوپرلیگ بسکتبال".toList]),
   ("wrestling".toList,
    ["کشتی".toList, "رزمی".toList, "جودو".toList, "کاراته".toList, "تکواندو".toList]),
   ("volleyball".toList,
    ["والیبال".toList, "سایپا".toList, "کالای خودرو".toList]),
   ("athletics".toList,
    ["دو و میدانی".toList, "دومیدانی".toList, "دوومیدانی".toList, "المپیک".toList])]

/-- The keyword test of `get_news_by_category`: some keyword is a
substring of the lowered title or the lowered description. -/
def matchesKeywords (kws : List (List Char)) (x : NewsItem) : Bool :=
  kws.any fun kw =>
    pyContains (pyLower x.title) kw || pyContains (pyLower x.description) kw

/-- The filter loop shared by `get_news_by_category` and
`get_esteghlal_news`: append each matching item, and break as soon as the
collected list has reached `limit` (checked after each iteration). -/
def collectLoop (p : NewsItem → Bool) (limit : Nat) :
    List NewsItem → List NewsItem → List NewsItem
  | [], acc => acc
  | x :: xs, acc =>
      let acc2 := if p x then acc ++ [x] else acc
      if limit ≤ acc2.length then acc2 else collectLoop p limit xs acc2

/-- Model of `RSSParser.get_news_by_category`: fetch the latest `3 * limit` items,
return them truncated to `limit` if the category is unknown, otherwise
keep keyword matches until `limit` of them are collected. -/
def get_news_by_category (parse : List Char → Option PyDateTime)
    (sources : List SourceFetch) (category : List Char) (limit : Nat) : List NewsItem :=
  let all_news := get_latest_news parse sources (limit * 3)
  match category_keywords.lookup category with
  | none => all_news.take limit
  | some kws => collectLoop (matchesKeywords kws) limit all_news []

/-- The fixed Persian target keyword of `get_esteghlal_news`. -/
def esteghlal_keyword : List Char := "استقلال".toList

/-- The per-item test of `get_esteghlal_news`: the target keyword occurs
in the lowered title or the lowered description. -/
def matchesEsteghlal (x : NewsItem) : Bool :=
  pyContains (pyLower x.title) esteghlal_keyword ||
    pyContains (pyLower x.description) esteghlal_keyword

/-- Model of `RSSParser.get_esteghlal_news`: merge all sources, collect keyword
matches until `limit` of them are found, stable-sort that subset newest
first, truncate to `limit`. -/
def get_esteghlal_news (parse : List Char → Option PyDateTime)
    (sources : List SourceFetch) (limit : Nat) : List NewsItem :=
  (sortNews (collectLoop matchesEsteghlal limit (mergeFeeds parse sources) [])).take limit

/-- Model of `RSSParser.get_all_news`: pure delegation to `get_latest_news`. -/
def get_all_news (parse : List Char → Option PyDateTime)
    (sources : List SourceFetch) (limit : Nat) : List NewsItem :=
  get_latest_news parse sources limit

/-- No two adjacent characters of the list are both spaces. -/
def noDoubleSpace : List Char → Bool
  | [] => true
  | [_] => true
  | a :: b :: t => !(a == ' ' && b == ' ') && noDoubleSpace (b :: t)

/-! ### Demo inputs used by the witnesses -/

def demoParse : List Char → Option PyDateTime := fun _ => none

def demoFailSources : List SourceFetch :=
  [⟨"varzesh3".toList, .fail⟩, ⟨"tarafdari".toList, .fail⟩]

def demoEntryGood : RawEntry :=
  { title := some "فوتبال و استقلال".toList
    summary := some "توضیح".toList
    description := none
    link := some "http://a".toList
    published := none
    published_parsed := some 5 }

def demoEntryBad : RawEntry :=
  { title := some "خبر".toList
    summary := none
    description := none
    link := some []
    published := none
    published_parsed := some 9 }

def demoSources : List SourceFetch :=
  [⟨"s1".toList, .ok [demoEntryGood, demoEntryBad]⟩, ⟨"s2".toList, .fail⟩]

def demoItem : NewsItem :=
  { title := "فوتبال و استقلال".toList
    description := "توضیح".toList
    link := "http://a".toList
    published := unknown_date
    published_parsed := 5
    source := "s1".toList }

def demoDT : PyDateTime := ⟨2024, 3, 7, 9, 5⟩

def demoParseX : List Char → Option PyDateTime :=
  fun d => if d = "x".toList then some demoDT else none

/-- The football keyword set consulted by `get_news_by_category`. -/
def football_keywords : List (List Char) :=
  (category_keywords.lookup ("football".toList)).getD []

/-! ### Sorting lemmas: `sortNews` is a stable descending sort -/

theorem filter_orderedInsert (a : NewsItem) (l : List NewsItem) (k : Nat) :
    (l.orderedInsert newsGE a).filter (fun x => x.published_parsed == k) =
      if a.published_parsed = k then
        a :: l.filter (fun x => x.published_parsed == k)
      else l.filter (fun x => x.published_parsed == k) := by
  induction l with
  | nil =>
      by_cases h : a.published_parsed = k
      · simp [List.orderedInsert, List.filter, h]
      · have hb : (a.published_parsed == k) = false := by simpa using h
        simp [List.orderedInsert, List.filter_cons, hb, h]
  | cons b t ih =>
      by_cases hr : newsGE a b
      · by_cases h : a.published_parsed = k <;>
          simp [List.orderedInsert, if_pos hr, List.filter_cons, h]
      · have hab : a.published_parsed < b.published_parsed := by
          simpa [newsGE, Nat.not_le] using hr
        by_cases h : a.published_parsed = k
        · have hb : (b.published_parsed == k) = false := by
            simp only [beq_eq_false_iff_ne]
            omega
          simp [List.orderedInsert, if_neg hr, List.filter_cons, hb, ih, h]
        · simp [List.orderedInsert, if_neg hr, List.filter_cons, ih, h]

theorem filter_sortNews (l : List NewsItem) (k : Nat) :
    (sortNews l).filter (fun x => x.published_parsed == k) =
      l.filter (fun x => x.published_parsed == k) := by
  induction l with
  | nil => rfl
  | cons a t ih =>
      have : sortNews (a :: t) = (sortNews t).orderedInsert newsGE a := rfl
      rw [this, filter_orderedInsert]
      by_cases h : a.published_parsed = k <;>
        simp [List.filter_cons, h, ih]

theorem sortNews_perm (l : List NewsItem) : List.Perm (sortNews l) l :=
  List.perm_insertionSort newsGE l

theorem sortNews_sorted (l : List NewsItem) : (sortNews l).Pairwise newsGE :=
  List.sorted_insertionSort newsGE l

theorem mem_sortNews {l : List NewsItem} {x : NewsItem} :
    x ∈ sortNews l ↔ x ∈ l :=
  (sortNews_perm l).mem_iff

/-! ### The collect-with-break loop -/

theorem collectLoop_mem (p : NewsItem → Bool) (limit : Nat) :
    ∀ (l acc : List NewsItem) (x : NewsItem), x ∈ collectLoop p limit l acc →
      x ∈ acc ∨ (p x = true ∧ x ∈ l) := by
  intro l
  induction l with
  | nil => intro acc x hx; exact Or.inl hx
  | cons a t ih =>
      intro acc x hx
      rw [collectLoop] at hx
      by_cases hb : limit ≤ (if p a then acc ++ [a] else acc).length
      · rw [if_pos hb] at hx
        by_cases hp : p a
        · rw [if_pos hp] at hx
          rcases List.mem_append.mp hx with h | h
          · exact Or.inl h
          · rcases List.mem_singleton.mp h with rfl
            exact Or.inr ⟨hp, List.mem_cons_self _ _⟩
        · rw [if_neg hp] at hx
          exact Or.inl hx
      · rw [if_neg hb] at hx
        rcases ih _ x hx with h | ⟨hpx, hxt⟩
        · by_cases hp : p a
          · rw [if_pos hp] at h
            rcases List.mem_append.mp h with h2 | h2
            · exact Or.inl h2
            · rcases List.mem_singleton.mp h2 with rfl
              exact Or.inr ⟨hp, List.mem_cons_self _ _⟩
          · rw [if_neg hp] at h
            exact Or.inl h
        · exact Or.inr ⟨hpx, List.mem_cons_of_mem a hxt⟩

theorem collectLoop_length (p : NewsItem → Bool) (limit : Nat) :
    ∀ (l acc : List NewsItem), acc.length < limit →
      (collectLoop p limit l acc).length ≤ limit := by
  intro l
  induction l with
  | nil => intro acc h; rw [collectLoop]; omega
  | cons a t ih =>
      intro acc h
      rw [collectLoop]
      have hlen : (if p a then acc ++ [a] else acc).length ≤ acc.length + 1 := by
        by_cases hp : p a <;> simp [hp]
      by_cases hb : limit ≤ (if p a then acc ++ [a] else acc).length
      · rw [if_pos hb]; omega
      · rw [if_neg hb]
        exact ih _ (by omega)

/-! ### Merge and per-entry lemmas -/

theorem mergeFeeds_all_fail (parse : List Char → Option PyDateTime)
    (sources : List SourceFetch)
    (h : ∀ s ∈ sources, s.outcome = FetchOutcome.fail) :
    mergeFeeds parse sources = [] := by
  induction sources with
  | nil => rfl
  | cons s t ih =>
      have hs : s.outcome = FetchOutcome.fail := h s (List.mem_cons_self s t)
      have ht := ih fun u hu => h u (List.mem_cons_of_mem s hu)
      simp only [mergeFeeds, List.map_cons, List.flatten_cons] at *
      rw [ht, fetch_feed, hs]
      rfl

theorem buildEntry_fields (parse : List Char → Option PyDateTime)
    (src : List Char) (e : RawEntry) (x : NewsItem)
    (h : buildEntry parse src e = some x) :
    x.title ≠ [] ∧ x.link ≠ [] := by
  unfold buildEntry at h
  simp only at h
  by_cases hc : clean_text (e.title.getD default_title) = [] ∨ e.link.getD [] = []
  · rw [if_pos hc] at h
    exact absurd h (by simp)
  · rw [if_neg hc] at h
    push_neg at hc
    cases h
    exact hc

theorem buildEntry_skip (parse : List Char → Option PyDateTime)
    (src : List Char) (e : RawEntry)
    (h : clean_text (e.title.getD default_title) = [] ∨ e.link.getD [] = []) :
    buildEntry parse src e = none := by
  unfold buildEntry
  simp only
  rw [if_pos h]

theorem mem_mergeFeeds_fields (parse : List Char → Option PyDateTime)
    (sources : List SourceFetch) (x : NewsItem)
    (h : x ∈ mergeFeeds parse sources) :
    x.title ≠ [] ∧ x.link ≠ [] := by
  unfold mergeFeeds at h
  rcases List.mem_flatten.mp h with ⟨chunk, hchunk, hx⟩
  rcases List.mem_map.mp hchunk with ⟨s, _, rfl⟩
  unfold fetch_feed at hx
  cases hs : s.outcome with
  | fail => rw [hs] at hx; exact absurd hx (by simp)
  | ok entries =>
      rw [hs] at hx
      unfold processEntries at hx
      rcases List.mem_filterMap.mp hx with ⟨e, _, he⟩
      exact buildEntry_fields parse s.name e x he

theorem mem_get_latest_merge (parse : List Char → Option PyDateTime)
    (sources : List SourceFetch) (limit : Nat) (x : NewsItem)
    (h : x ∈ get_latest_news parse sources limit) :
    x ∈ mergeFeeds parse sources := by
  unfold get_latest_news at h
  exact mem_sortNews.mp (List.take_subset limit _ h)

/-! ### Tag removal lemmas -/

theorem stripGo_none_no_lt (l : List Char) (h : '<' ∉ l) :
    stripGo none l = l := by
  induction l with
  | nil => rfl
  | cons c t ih =>
      have hc : ¬c = '<' := fun e => h (e ▸ List.mem_cons_self _ _)
      have ht := ih fun m => h (List.mem_cons_of_mem c m)
      rw [stripGo, if_neg hc, ht]

theorem stripGo_no_gt (l : List Char) (h : '>' ∉ l) :
    (∀ b, stripGo (some b) l = b ++ l) ∧ stripGo none l = l := by
  induction l with
  | nil => simp [stripGo]
  | cons c t ih =>
      have hc : ¬c = '>' := fun e => h (e ▸ List.mem_cons_self _ _)
      obtain ⟨ihs, ihn⟩ := ih fun m => h (List.mem_cons_of_mem c m)
      constructor
      · intro b
        by_cases hlt : c = '<'
        · subst hlt
          rw [stripGo, if_pos rfl, ihs]
          simp
        · rw [stripGo, if_neg hlt, if_neg hc, ihs]
          simp
      · by_cases hlt : c = '<'
        · subst hlt
          rw [stripGo, if_pos rfl, ihs]
          rfl
        · rw [stripGo, if_neg hlt, ihn]

/-! ### Persian-character replacement lemmas -/

theorem replacePersian_mem (l : List Char) (c : Char)
    (h : c ∈ replacePersian l) : c ∈ l ∨ c = 'ی' ∨ c = 'ک' := by
  rcases List.mem_map.mp h with ⟨b, hb, rfl⟩
  unfold replacePersianChar
  by_cases h1 : b = 'ي'
  · simp [h1]
  · by_cases h2 : b = 'ك' <;> simp [h1, h2, hb]

theorem replacePersian_no_arabic (l : List Char) (c : Char)
    (h : c ∈ replacePersian l) : c ≠ 'ي' ∧ c ≠ 'ك' := by
  rcases List.mem_map.mp h with ⟨b, _, rfl⟩
  unfold replacePersianChar
  by_cases h1 : b = 'ي'
  · simp [h1]
  · by_cases h2 : b = 'ك'
    · simp [h1, h2]
    · simp only [if_neg h1, if_neg h2]
      exact ⟨h1, h2⟩

theorem replacePersian_fixed (l : List Char)
    (h : ∀ c ∈ l, c ≠ 'ي' ∧ c ≠ 'ك') : replacePersian l = l := by
  unfold replacePersian
  conv_rhs => rw [← List.map_id l]
  apply List.map_congr_left
  intro a ha
  unfold replacePersianChar
  rw [if_neg (h a ha).1, if_neg (h a ha).2]
  rfl

/-! ### Whitespace split/join/strip lemmas -/

/-- All pieces produced by `str.split()` are nonempty and whitespace-free. -/
theorem splitAux_words :
    ∀ (l acc : List Char), (∀ c ∈ acc, isWsB c = false) →
      ∀ w ∈ splitAux l acc, w ≠ [] ∧ ∀ c ∈ w, isWsB c = false := by
  intro l
  induction l with
  | nil =>
      intro acc hacc w hw
      rw [splitAux] at hw
      by_cases ha : acc = []
      · rw [if_pos ha] at hw
        simp at hw
      · rw [if_neg ha] at hw
        rcases List.mem_singleton.mp hw with rfl
        refine ⟨by simpa using ha, ?_⟩
        intro c hc
        exact hacc c (List.mem_reverse.mp hc)
  | cons c t ih =>
      intro acc hacc w hw
      rw [splitAux] at hw
      by_cases hc : isWsB c
      · rw [if_pos hc] at hw
        by_cases ha : acc = []
        · rw [if_pos ha] at hw
          exact ih [] (by simp) w hw
        · rw [if_neg ha] at hw
          rcases List.mem_cons.mp hw with rfl | hw2
          · refine ⟨by simpa using ha, ?_⟩
            intro d hd
            exact hacc d (List.mem_reverse.mp hd)
          · exact ih [] (by simp) w hw2
      · rw [if_neg hc] at hw
        refine ih (c :: acc) ?_ w hw
        intro d hd
        rcases List.mem_cons.mp hd with rfl | hd2
        · simpa using hc
        · exact hacc d hd2

theorem pySplit_words (l : List Char) :
    ∀ w ∈ pySplit l, w ≠ [] ∧ ∀ c ∈ w, isWsB c = false :=
  splitAux_words l [] (by simp)

/-- Scanning a whitespace-free word just accumulates it reversed. -/
theorem splitAux_word_append (w : List Char) :
    ∀ (rest acc : List Char), (∀ c ∈ w, isWsB c = false) →
      splitAux (w ++ rest) acc = splitAux rest (w.reverse ++ acc) := by
  induction w with
  | nil => intro rest acc _; simp
  | cons c w ih =>
      intro rest acc hw
      have hc : isWsB c = false := hw c (List.mem_cons_self _ _)
      rw [List.cons_append, splitAux, if_neg (by simp [hc])]
      rw [ih rest (c :: acc) fun d hd => hw d (List.mem_cons_of_mem c hd)]
      simp

theorem joinSp_cons_eq (w : List Char) (ws : List (List Char)) :
    ∃ r, joinSp (w :: ws) = w ++ r :=
  ⟨if ws = [] then [] else ' ' :: joinSp ws, rfl⟩

theorem joinSp_singleton (w : List Char) : joinSp [w] = w := by
  rw [joinSp, if_pos rfl, List.append_nil]

theorem joinSp_cons_cons (w w2 : List Char) (ws2 : List (List Char)) :
    joinSp (w :: w2 :: ws2) = w ++ ' ' :: joinSp (w2 :: ws2) := by
  rw [joinSp, if_neg (by simp)]

theorem joinSp_ne_nil (w : List Char) (ws : List (List Char)) (hw : w ≠ []) :
    joinSp (w :: ws) ≠ [] := by
  obtain ⟨r, hr⟩ := joinSp_cons_eq w ws
  rw [hr]
  simp [hw]

/-- Splitting the join of good words recovers exactly the words. -/
theorem pySplit_joinSp (ws : List (List Char))
    (h : ∀ w ∈ ws, w ≠ [] ∧ ∀ c ∈ w, isWsB c = false) :
    pySplit (joinSp ws) = ws := by
  induction ws with
  | nil => rfl
  | cons w ws ih =>
      obtain ⟨hwne, hwchars⟩ := h w (List.mem_cons_self _ _)
      have hrest : ∀ u ∈ ws, u ≠ [] ∧ ∀ c ∈ u, isWsB c = false :=
        fun u hu => h u (List.mem_cons_of_mem w hu)
      have hrvne : w.reverse ≠ [] := by simpa using hwne
      cases ws with
      | nil =>
          show splitAux (joinSp [w]) [] = [w]
          rw [joinSp_singleton]
          have h2 : splitAux (w ++ []) [] = splitAux [] (w.reverse ++ []) :=
            splitAux_word_append w [] [] hwchars
          rw [List.append_nil, List.append_nil] at h2
          rw [h2, splitAux, if_neg hrvne, List.reverse_reverse]
      | cons w2 ws2 =>
          show splitAux (joinSp (w :: w2 :: ws2)) [] = w :: w2 :: ws2
          rw [joinSp_cons_cons]
          rw [splitAux_word_append w (' ' :: joinSp (w2 :: ws2)) [] hwchars]
          rw [List.append_nil]
          rw [splitAux, if_pos (by simp [isWsB]), if_neg hrvne,
            List.reverse_reverse]
          exact congrArg (w :: ·) (ih hrest)

theorem head_append_left (A B : List Char) (hA : A ≠ []) :
    (A ++ B).head? = A.head? := by
  cases A with
  | nil => exact absurd rfl hA
  | cons a t => rfl

/-- The join of good words starts with a non-whitespace character. -/
theorem joinSp_head_no_ws (ws : List (List Char))
    (h : ∀ w ∈ ws, w ≠ [] ∧ ∀ c ∈ w, isWsB c = false) :
    ∀ c, (joinSp ws).head? = some c → isWsB c = false := by
  intro c hc
  cases ws with
  | nil => simp [joinSp] at hc
  | cons w ws =>
      obtain ⟨hwne, hwchars⟩ := h w (List.mem_cons_self _ _)
      obtain ⟨r, hr⟩ := joinSp_cons_eq w ws
      rw [hr, head_append_left w r hwne] at hc
      cases w with
      | nil => exact absurd rfl hwne
      | cons a t =>
          rw [show (a :: t).head? = some a from rfl] at hc
          cases hc
          exact hwchars _ (List.mem_cons_self _ _)

/-- The join of good words ends with a non-whitespace character. -/
theorem joinSp_last_no_ws (ws : List (List Char))
    (h : ∀ w ∈ ws, w ≠ [] ∧ ∀ c ∈ w, isWsB c = false) :
    ∀ c, (joinSp ws).reverse.head? = some c → isWsB c = false := by
  induction ws with
  | nil => intro c hc; simp [joinSp] at hc
  | cons w ws ih =>
      intro c hc
      obtain ⟨hwne, hwchars⟩ := h w (List.mem_cons_self _ _)
      have hrest : ∀ u ∈ ws, u ≠ [] ∧ ∀ c ∈ u, isWsB c = false :=
        fun u hu => h u (List.mem_cons_of_mem w hu)
      cases ws with
      | nil =>
          rw [joinSp_singleton] at hc
          have hcm : c ∈ w.reverse := by
            cases hrw : w.reverse with
            | nil => rw [hrw] at hc; simp at hc
            | cons a t =>
                rw [hrw] at hc
                cases hc
                exact List.mem_cons_self _ _
          exact hwchars c (List.mem_reverse.mp hcm)
      | cons w2 ws2 =>
          obtain ⟨hw2ne, _⟩ := hrest w2 (List.mem_cons_self _ _)
          rw [joinSp_cons_cons, List.reverse_append, List.reverse_cons] at hc
          rw [List.append_assoc] at hc
          have hJne : (joinSp (w2 :: ws2)).reverse ≠ [] := by
            simpa using joinSp_ne_nil w2 ws2 hw2ne
          rw [head_append_left _ _ hJne] at hc
          exact ih hrest c hc

/-- Python `str.strip()` is the identity on strings with non-whitespace ends. -/
theorem pyStrip_noop (l : List Char)
    (h1 : ∀ c, l.head? = some c → isWsB c = false)
    (h2 : ∀ c, l.reverse.head? = some c → isWsB c = false) :
    pyStrip l = l := by
  unfold pyStrip
  have e1 : l.dropWhile isWsB = l := by
    cases l with
    | nil => rfl
    | cons a t => rw [List.dropWhile_cons, if_neg (by simp [h1 a rfl])]
  rw [e1]
  have e2 : l.reverse.dropWhile isWsB = l.reverse := by
    cases hr : l.reverse with
    | nil => rfl
    | cons a t =>
        rw [List.dropWhile_cons, if_neg (by simp [h2 a (by rw [hr]; rfl)])]
  rw [e2, List.reverse_reverse]

theorem pyStrip_joinSp (ws : List (List Char))
    (h : ∀ w ∈ ws, w ≠ [] ∧ ∀ c ∈ w, isWsB c = false) :
    pyStrip (joinSp ws) = joinSp ws :=
  pyStrip_noop _ (joinSp_head_no_ws ws h) (joinSp_last_no_ws ws h)

theorem cleanCore_eq_join (l : List Char) :
    cleanCore l = joinSp (pySplit l) :=
  pyStrip_joinSp (pySplit l) (pySplit_words l)

/-- The whitespace-collapsing core of `_clean_text` is idempotent. -/
theorem cleanCore_idem (l : List Char) :
    cleanCore (cleanCore l) = cleanCore l := by
  rw [cleanCore_eq_join l]
  show pyStrip (joinSp (pySplit (joinSp (pySplit l)))) = joinSp (pySplit l)
  rw [pySplit_joinSp (pySplit l) (pySplit_words l)]
  exact pyStrip_joinSp (pySplit l) (pySplit_words l)

/-! ### Character-membership lemmas for the cleaning pipeline -/

theorem mem_splitAux (c : Char) :
    ∀ (l acc : List Char) (w : List Char), w ∈ splitAux l acc → c ∈ w →
      c ∈ l ∨ c ∈ acc := by
  intro l
  induction l with
  | nil =>
      intro acc w hw hc
      rw [splitAux] at hw
      by_cases ha : acc = []
      · rw [if_pos ha] at hw; simp at hw
      · rw [if_neg ha] at hw
        rcases List.mem_singleton.mp hw with rfl
        exact Or.inr (List.mem_reverse.mp hc)
  | cons a t ih =>
      intro acc w hw hc
      rw [splitAux] at hw
      by_cases haw : isWsB a
      · rw [if_pos haw] at hw
        by_cases ha : acc = []
        · rw [if_pos ha] at hw
          rcases ih [] w hw hc with h | h
          · exact Or.inl (List.mem_cons_of_mem a h)
          · simp at h
        · rw [if_neg ha] at hw
          rcases List.mem_cons.mp hw with rfl | hw2
          · exact Or.inr (List.mem_reverse.mp hc)
          · rcases ih [] w hw2 hc with h | h
            · exact Or.inl (List.mem_cons_of_mem a h)
            · simp at h
      · rw [if_neg haw] at hw
        rcases ih (a :: acc) w hw hc with h | h
        · exact Or.inl (List.mem_cons_of_mem a h)
        · rcases List.mem_cons.mp h with rfl | h2
          · exact Or.inl (List.mem_cons_self _ _)
          · exact Or.inr h2

theorem mem_joinSp (ws : List (List Char)) (c : Char)
    (h : c ∈ joinSp ws) : c = ' ' ∨ ∃ w ∈ ws, c ∈ w := by
  induction ws with
  | nil => simp [joinSp] at h
  | cons w ws ih =>
      cases ws with
      | nil =>
          rw [joinSp_singleton] at h
          exact Or.inr ⟨w, List.mem_cons_self _ _, h⟩
      | cons w2 ws2 =>
          rw [joinSp_cons_cons] at h
          rcases List.mem_append.mp h with h1 | h1
          · exact Or.inr ⟨w, List.mem_cons_self _ _, h1⟩
          · rcases List.mem_cons.mp h1 with rfl | h2
            · exact Or.inl rfl
            · rcases ih h2 with h3 | ⟨u, hu, hcu⟩
              · exact Or.inl h3
              · exact Or.inr ⟨u, List.mem_cons_of_mem w hu, hcu⟩

theorem mem_pyStrip (l : List Char) (c : Char) (h : c ∈ pyStrip l) : c ∈ l := by
  unfold pyStrip at h
  have h1 := List.mem_reverse.mp h
  have h2 := (List.dropWhile_sublist (l := (l.dropWhile isWsB).reverse) (p := isWsB)).subset h1
  have h3 := List.mem_reverse.mp h2
  exact (List.dropWhile_sublist (l := l) (p := isWsB)).subset h3

theorem mem_cleanCore (l : List Char) (c : Char)
    (h : c ∈ cleanCore l) : c ∈ l ∨ c = ' ' := by
  unfold cleanCore at h
  have h1 := mem_pyStrip _ c h
  rcases mem_joinSp _ c h1 with h2 | ⟨w, hw, hcw⟩
  · exact Or.inr h2
  · rcases mem_splitAux c l [] w hw hcw with h3 | h3
    · exact Or.inl h3
    · simp at h3

/-! ### `_clean_text` behaviour on tag-free input -/

theorem clean_text_eq_of_no_lt (l : List Char) (h : '<' ∉ l) (hl : l ≠ []) :
    clean_text l = cleanCore (replacePersian l) := by
  rw [clean_text, if_neg hl, removeTags, stripGo_none_no_lt l h]

/-- Characters of `clean_text l` for tag-free `l`: every character is a
character of `l`, a canonical Persian replacement, or a space. -/
theorem mem_clean_text_no_lt (l : List Char) (h : '<' ∉ l) (c : Char)
    (hc : c ∈ clean_text l) : c ∈ l ∨ c = 'ی' ∨ c = 'ک' ∨ c = ' ' := by
  by_cases hl : l = []
  · subst hl; simp [clean_text] at hc
  · rw [clean_text_eq_of_no_lt l h hl] at hc
    rcases mem_cleanCore _ c hc with h1 | h1
    · rcases replacePersian_mem l c h1 with h2 | h2 | h2
      · exact Or.inl h2
      · exact Or.inr (Or.inl h2)
      · exact Or.inr (Or.inr (Or.inl h2))
    · exact Or.inr (Or.inr (Or.inr h1))

/-- The output of `clean_text` on tag-free input contains no Arabic yeh/kaf. -/
theorem clean_text_no_arabic_no_lt (l : List Char) (h : '<' ∉ l) (c : Char)
    (hc : c ∈ clean_text l) : c ≠ 'ي' ∧ c ≠ 'ك' := by
  by_cases hl : l = []
  · subst hl; simp [clean_text] at hc
  · rw [clean_text_eq_of_no_lt l h hl] at hc
    rcases mem_cleanCore _ c hc with h1 | h1
    · exact replacePersian_no_arabic l c h1
    · subst h1; refine ⟨by decide, by decide⟩

theorem clean_text_idem_aux (l : List Char) (h : '<' ∉ l) :
    clean_text (clean_text l) = clean_text l := by
  by_cases hl : l = []
  · subst hl; rfl
  · rw [clean_text_eq_of_no_lt l h hl]
    by_cases hse : cleanCore (replacePersian l) = []
    · rw [hse]; rfl
    · have hslt : '<' ∉ cleanCore (replacePersian l) := by
        intro hmem
        rcases mem_cleanCore _ '<' hmem with h1 | h1
        · rcases replacePersian_mem l '<' h1 with h2 | h2 | h2
          · exact h h2
          · exact absurd h2 (by decide)
          · exact absurd h2 (by decide)
        · exact absurd h1 (by decide)
      have hrep : replacePersian (cleanCore (replacePersian l)) =
          cleanCore (replacePersian l) := by
        apply replacePersian_fixed
        intro c hc
        rcases mem_cleanCore _ c hc with h1 | h1
        · exact replacePersian_no_arabic _ c h1
        · subst h1; exact ⟨by decide, by decide⟩
      rw [clean_text_eq_of_no_lt _ hslt hse, hrep]
      exact cleanCore_idem _

/-! ### No-double-space property -/

theorem space_not_ws_false (c : Char) (h : isWsB c = false) : c ≠ ' ' :=
  fun e => by subst e; exact absurd h (by decide)

theorem noDS_word_append (w rest : List Char)
    (hw : ∀ c ∈ w, c ≠ ' ') (hr : noDoubleSpace rest = true) :
    noDoubleSpace (w ++ rest) = true := by
  induction w with
  | nil => simpa using hr
  | cons a w ih =>
      have ha : (a == ' ') = false :=
        beq_eq_false_iff_ne.mpr (hw a (List.mem_cons_self _ _))
      have ih2 := ih fun c hc => hw c (List.mem_cons_of_mem a hc)
      rw [List.cons_append]
      cases hwr : w ++ rest with
      | nil => rfl
      | cons b t =>
          rw [hwr] at ih2
          rw [noDoubleSpace, ha]
          simpa using ih2

theorem noDS_joinSp (ws : List (List Char))
    (h : ∀ w ∈ ws, w ≠ [] ∧ ∀ c ∈ w, isWsB c = false) :
    noDoubleSpace (joinSp ws) = true := by
  induction ws with
  | nil => rfl
  | cons w ws ih =>
      obtain ⟨hwne, hwch⟩ := h w (List.mem_cons_self _ _)
      have hw2 : ∀ c ∈ w, c ≠ ' ' := fun c hc => space_not_ws_false c (hwch c hc)
      have hrest : ∀ u ∈ ws, u ≠ [] ∧ ∀ c ∈ u, isWsB c = false :=
        fun u hu => h u (List.mem_cons_of_mem w hu)
      cases ws with
      | nil =>
          rw [joinSp_singleton]
          have := noDS_word_append w [] hw2 rfl
          simpa using this
      | cons u us =>
          rw [joinSp_cons_cons]
          apply noDS_word_append w _ hw2
          obtain ⟨hune, huch⟩ := hrest u (List.mem_cons_self _ _)
          obtain ⟨r, hrj⟩ := joinSp_cons_eq u us
          have hJ := ih hrest
          rw [hrj] at hJ ⊢
          cases u with
          | nil => exact absurd rfl hune
          | cons b wb =>
              have hb : (b == ' ') = false :=
                beq_eq_false_iff_ne.mpr
                  (space_not_ws_false b (huch b (List.mem_cons_self _ _)))
              rw [List.cons_append] at hJ ⊢
              rw [noDoubleSpace, hb]
              simpa using hJ

theorem clean_text_noDS (l : List Char) :
    noDoubleSpace (clean_text l) = true := by
  by_cases hl : l = []
  · subst hl; rfl
  · rw [clean_text, if_neg hl, cleanCore_eq_join]
    exact noDS_joinSp _ (pySplit_words _)

/-! ### Remaining membership helpers for the public operations -/

theorem get_latest_nil (parse : List Char → Option PyDateTime)
    (sources : List SourceFetch) (limit : Nat)
    (hm : mergeFeeds parse sources = []) :
    get_latest_news parse sources limit = [] := by
  rw [get_latest_news, hm]
  simp [sortNews]

theorem mem_category_merge (parse : List Char → Option PyDateTime)
    (sources : List SourceFetch) (cat : List Char) (limit : Nat) (x : NewsItem)
    (h : x ∈ get_news_by_category parse sources cat limit) :
    x ∈ mergeFeeds parse sources := by
  rw [get_news_by_category] at h
  cases hcat : category_keywords.lookup cat with
  | none =>
      rw [hcat] at h
      exact mem_get_latest_merge parse sources _ x (List.take_subset limit _ h)
  | some kws =>
      rw [hcat] at h
      rcases collectLoop_mem _ _ _ _ x h with h2 | ⟨_, h2⟩
      · simp at h2
      · exact mem_get_latest_merge parse sources _ x h2

theorem mem_esteghlal_merge (parse : List Char → Option PyDateTime)
    (sources : List SourceFetch) (limit : Nat) (x : NewsItem)
    (h : x ∈ get_esteghlal_news parse sources limit) :
    x ∈ mergeFeeds parse sources := by
  rw [get_esteghlal_news] at h
  have h1 := mem_sortNews.mp (List.take_subset _ _ h)
  rcases collectLoop_mem _ _ _ _ x h1 with h2 | ⟨_, h2⟩
  · simp at h2
  · exact h2

/-! ### Claim theorems -/

/-- Claim C1: for fixed per-source fetch results, `get_latest_news limit`
returns exactly the merged items of the fetched sources (failed sources
contribute nothing), sorted descending by `published_parsed`, truncated to
the first `limit`; equal keys keep their pre-sort merge order (the filter
of the sorted merge at any key value equals the filter of the raw merge). -/
theorem claim_get_latest_news_stable_sort (parse : List Char → Option PyDateTime)
    (sources : List SourceFetch) (limit : Nat) :
    get_latest_news parse sources limit =
        (sortNews (mergeFeeds parse sources)).take limit
    ∧ List.Perm (sortNews (mergeFeeds parse sources)) (mergeFeeds parse sources)
    ∧ (get_latest_news parse sources limit).Pairwise newsGE
    ∧ ∀ k, (sortNews (mergeFeeds parse sources)).filter
            (fun x => x.published_parsed == k) =
          (mergeFeeds parse sources).filter (fun x => x.published_parsed == k) := by
  refine ⟨rfl, sortNews_perm _, ?_, fun k => filter_sortNews _ k⟩
  exact List.Pairwise.sublist (List.take_sublist _ _) (sortNews_sorted _)

/-- Claim C2: when every source fails (timeout, non-2xx, malformed feed,
raised exception — all modelled by `FetchOutcome.fail`), the three public
operations all return the empty sequence; they are total Lean functions,
so no error is ever raised. -/
theorem claim_all_fail_empty (parse : List Char → Option PyDateTime)
    (sources : List SourceFetch) (cat : List Char) (lim1 lim2 lim3 : Nat)
    (h : ∀ s ∈ sources, s.outcome = FetchOutcome.fail) :
    get_latest_news parse sources lim1 = []
    ∧ get_news_by_category parse sources cat lim2 = []
    ∧ get_esteghlal_news parse sources lim3 = [] := by
  have hm := mergeFeeds_all_fail parse sources h
  refine ⟨get_latest_nil parse sources lim1 hm, ?_, ?_⟩
  · rw [get_news_by_category, get_latest_nil parse sources (lim2 * 3) hm]
    cases hcat : category_keywords.lookup cat with
    | none => simp
    | some kws => simp [collectLoop]
  · rw [get_esteghlal_news, hm]
    simp [collectLoop, sortNews]

theorem claim_all_fail_empty_witness :
    get_latest_news demoParse demoFailSources 10 = []
    ∧ get_news_by_category demoParse demoFailSources ("football".toList) 10 = []
    ∧ get_esteghlal_news demoParse demoFailSources 5 = [] :=
  claim_all_fail_empty demoParse demoFailSources ("football".toList) 10 10 5
    (by decide)

/-- Claim C3: every item in the output of the three public operations has
a non-empty title and a non-empty link, and an entry whose link is empty —
or whose title is empty after normalization — is skipped without affecting
the sibling entries of the same feed. -/
theorem claim_output_fields_nonempty (parse : List Char → Option PyDateTime)
    (sources : List SourceFetch) (cat : List Char) (lim1 lim2 lim3 : Nat) :
    (∀ x : NewsItem,
        (x ∈ get_latest_news parse sources lim1 ∨
         x ∈ get_news_by_category parse sources cat lim2 ∨
         x ∈ get_esteghlal_news parse sources lim3) →
        x.title ≠ [] ∧ x.link ≠ [])
    ∧ (∀ (src : List Char) (l1 l2 : List RawEntry) (e : RawEntry),
        (clean_text (e.title.getD default_title) = [] ∨ e.link.getD [] = []) →
        processEntries parse src (l1 ++ e :: l2) =
          processEntries parse src (l1 ++ l2)) := by
  constructor
  · intro x hx
    rcases hx with hx | hx | hx
    · exact mem_mergeFeeds_fields parse sources x
        (mem_get_latest_merge parse sources lim1 x hx)
    · exact mem_mergeFeeds_fields parse sources x
        (mem_category_merge parse sources cat lim2 x hx)
    · exact mem_mergeFeeds_fields parse sources x
        (mem_esteghlal_merge parse sources lim3 x hx)
  · intro src l1 l2 e he
    have hskip := buildEntry_skip parse src e he
    simp [processEntries, List.filterMap_append, List.filterMap_cons, hskip]

theorem claim_output_fields_nonempty_witness :
    (demoItem.title ≠ [] ∧ demoItem.link ≠ [])
    ∧ processEntries demoParse ("s1".toList)
        ([demoEntryGood] ++ demoEntryBad :: []) =
      processEntries demoParse ("s1".toList) ([demoEntryGood] ++ []) :=
  ⟨(claim_output_fields_nonempty demoParse demoSources ("football".toList)
      10 10 5).1 demoItem (Or.inl (by decide)),
   (claim_output_fields_nonempty demoParse demoSources ("football".toList)
      10 10 5).2 ("s1".toList) [demoEntryGood] [] demoEntryBad (by decide)⟩

/-- Claim C4 is false on the code: the non-greedy tag regex can expose a
new well-formed tag after one removal pass, so `_clean_text` is not
idempotent.  On `"<a<b>c>"` one pass yields `"<ac>"` and a second pass
yields `""`. -/
theorem claim_normalize_idem_counterexample :
    clean_text (clean_text ("<a<b>c>".toList)) ≠ clean_text ("<a<b>c>".toList) := by
  decide

/-- Claim C4 (amended): `_clean_text` is idempotent on every input that
contains no `<` character (on such input the tag-removal pass is the
identity, and the character replacement and whitespace collapse are
idempotent). -/
theorem claim_normalize_idem_amended (l : List Char) (h : '<' ∉ l) :
    clean_text (clean_text l) = clean_text l :=
  clean_text_idem_aux l h

theorem claim_normalize_idem_amended_witness :
    '<' ∉ ("سلام  خبر ي".toList)
    ∧ clean_text (clean_text ("سلام  خبر ي".toList)) =
        clean_text ("سلام  خبر ي".toList) :=
  ⟨by decide, claim_normalize_idem_amended _ (by decide)⟩

/-- Claim C5 is false on the code: `_clean_text` does not remove a lone
opening angle bracket (the regex needs a closing one), so the output can
contain a literal tag delimiter. -/
theorem claim_no_tag_delims_counterexample :
    '<' ∈ clean_text ("<".toList) := by decide

/-- Claim C5 (amended): `_clean_text` output never contains two adjacent
spaces; and it contains no opening (resp. closing) angle bracket provided
the input contains none — but may retain such characters present in the
input. -/
theorem claim_no_tag_delims_amended (l : List Char) :
    noDoubleSpace (clean_text l) = true
    ∧ ('<' ∉ l → '<' ∉ clean_text l)
    ∧ ('>' ∉ l → '>' ∉ clean_text l) := by
  refine ⟨clean_text_noDS l, ?_, ?_⟩
  · intro h hmem
    rcases mem_clean_text_no_lt l h '<' hmem with h1 | h1 | h1 | h1
    · exact h h1
    · exact absurd h1 (by decide)
    · exact absurd h1 (by decide)
    · exact absurd h1 (by decide)
  · intro h hmem
    by_cases hl : l = []
    · subst hl; simp [clean_text] at hmem
    · have hct : clean_text l = cleanCore (replacePersian l) := by
        rw [clean_text, if_neg hl, removeTags, (stripGo_no_gt l h).2]
      rw [hct] at hmem
      rcases mem_cleanCore _ '>' hmem with h1 | h1
      · rcases replacePersian_mem l '>' h1 with h2 | h2 | h2
        · exact h h2
        · exact absurd h2 (by decide)
        · exact absurd h2 (by decide)
      · exact absurd h1 (by decide)

theorem claim_no_tag_delims_amended_witness :
    noDoubleSpace (clean_text ("a  b".toList)) = true
    ∧ '<' ∉ clean_text ("a  b".toList)
    ∧ '>' ∉ clean_text ("a  b".toList) :=
  ⟨(claim_no_tag_delims_amended ("a  b".toList)).1,
   (claim_no_tag_delims_amended ("a  b".toList)).2.1 (by decide),
   (claim_no_tag_delims_amended ("a  b".toList)).2.2 (by decide)⟩

/-- Claim C6: `_format_date` contract — empty input yields the fixed
sentinel `unknown_date`; a successfully parsed date renders as
day, Persian month name (12-entry table indexed by month), year, and
zero-padded HH:MM (see `renderDate`); a parse failure returns the raw
input unchanged.  The function is total, so it always returns a string. -/
theorem claim_format_date_contract (parse : List Char → Option PyDateTime) :
    format_date parse [] = unknown_date
    ∧ (∀ d dt, parse d = some dt → d ≠ [] → format_date parse d = renderDate dt)
    ∧ (∀ d, parse d = none → d ≠ [] → format_date parse d = d) := by
  refine ⟨rfl, ?_, ?_⟩
  · intro d dt hp hd
    rw [format_date, if_neg hd, hp]
  · intro d hp hd
    rw [format_date, if_neg hd, hp]

theorem claim_format_date_contract_witness :
    format_date demoParseX [] = unknown_date
    ∧ format_date demoParseX ("x".toList) = renderDate demoDT
    ∧ format_date demoParseX ("y".toList) = "y".toList :=
  ⟨(claim_format_date_contract demoParseX).1,
   (claim_format_date_contract demoParseX).2.1 _ demoDT (by decide) (by decide),
   (claim_format_date_contract demoParseX).2.2 _ (by decide) (by decide)⟩

/-- Claim C7: with an unrecognized category string,
`get_news_by_category category limit` returns exactly
`get_latest_news limit` (it truncates the latest `3 * limit` to `limit`,
which is the same list). -/
theorem claim_unknown_category_is_latest (parse : List Char → Option PyDateTime)
    (sources : List SourceFetch) (limit : Nat) (cat : List Char)
    (h : category_keywords.lookup cat = none) :
    get_news_by_category parse sources cat limit =
      get_latest_news parse sources limit := by
  rw [get_news_by_category, h, get_latest_news, get_latest_news,
    List.take_take, min_eq_left (by omega)]

theorem claim_unknown_category_is_latest_witness :
    get_news_by_category demoParse demoSources ("tennis".toList) 2 =
      get_latest_news demoParse demoSources 2 :=
  claim_unknown_category_is_latest demoParse demoSources 2 ("tennis".toList)
    (by decide)

/-- Claim C8: `get_news_by_category "football" 5` returns at most five
items, and every returned item matches at least one football keyword as a
substring of its lowered title or lowered description. -/
theorem claim_football_filter (parse : List Char → Option PyDateTime)
    (sources : List SourceFetch) :
    (get_news_by_category parse sources ("football".toList) 5).length ≤ 5
    ∧ ∀ x ∈ get_news_by_category parse sources ("football".toList) 5,
        ∃ kw ∈ football_keywords,
          pyContains (pyLower x.title) kw = true ∨
            pyContains (pyLower x.description) kw = true := by
  have hlook : category_keywords.lookup ("football".toList) =
      some football_keywords := by decide
  constructor
  · rw [get_news_by_category, hlook]
    exact collectLoop_length _ 5 _ [] (by simp)
  · intro x hx
    rw [get_news_by_category, hlook] at hx
    rcases collectLoop_mem _ _ _ _ x hx with h2 | ⟨hpx, _⟩
    · simp at h2
    · rw [matchesKeywords] at hpx
      rcases List.any_eq_true.mp hpx with ⟨kw, hkw, hkwp⟩
      exact ⟨kw, hkw, by simpa using hkwp⟩

theorem claim_football_filter_witness :
    (get_news_by_category demoParse demoSources ("football".toList) 5).length ≤ 5
    ∧ ∃ kw ∈ football_keywords,
        pyContains (pyLower demoItem.title) kw = true ∨
          pyContains (pyLower demoItem.description) kw = true :=
  ⟨(claim_football_filter demoParse demoSources).1,
   (claim_football_filter demoParse demoSources).2 demoItem (by decide)⟩

/-- Claim C9: `get_esteghlal_news` collects up to `limit` items matching
the fixed keyword while scanning the merged (unsorted) list, then sorts
that filtered subset descending by `published_parsed`; the returned list
is sorted descending, every returned item matches the keyword, and at most
`limit` items are returned. -/
theorem claim_targeted_sorted (parse : List Char → Option PyDateTime)
    (sources : List SourceFetch) (limit : Nat) :
    get_esteghlal_news parse sources limit =
      (sortNews (collectLoop matchesEsteghlal limit
        (mergeFeeds parse sources) [])).take limit
    ∧ (get_esteghlal_news parse sources limit).Pairwise newsGE
    ∧ (∀ x ∈ get_esteghlal_news parse sources limit, matchesEsteghlal x = true)
    ∧ (get_esteghlal_news parse sources limit).length ≤ limit := by
  refine ⟨rfl, ?_, ?_, ?_⟩
  · exact List.Pairwise.sublist (List.take_sublist _ _) (sortNews_sorted _)
  · intro x hx
    rw [get_esteghlal_news] at hx
    have h1 := mem_sortNews.mp (List.take_subset _ _ hx)
    rcases collectLoop_mem _ _ _ _ x h1 with h2 | ⟨hp, _⟩
    · simp at h2
    · exact hp
  · rw [get_esteghlal_news, List.length_take]
    omega

theorem claim_targeted_sorted_witness :
    (get_esteghlal_news demoParse demoSources 5).Pairwise newsGE
    ∧ matchesEsteghlal demoItem = true
    ∧ (get_esteghlal_news demoParse demoSources 5).length ≤ 5 :=
  ⟨(claim_targeted_sorted demoParse demoSources 5).2.1,
   (claim_targeted_sorted demoParse demoSources 5).2.2.1 demoItem (by decide),
   (claim_targeted_sorted demoParse demoSources 5).2.2.2⟩

/-- Claim C10: `get_all_news` is a pure delegation: it returns exactly
`get_latest_news` at the same limit and fetch results. -/
theorem claim_get_all_news_delegates (parse : List Char → Option PyDateTime)
    (sources : List SourceFetch) (limit : Nat) :
    get_all_news parse sources limit = get_latest_news parse sources limit :=
  rfl

end Abidel
